import Mathlib

/-!
Verification of the vision-infra logging and configuration subsystems.

Strings are modelled as lists of characters (`Str`).  Each definition below
mirrors one function of the C++ sources (`src/config/Config.cpp`,
`src/config/ConfigManager.cpp`); console and file writes are modelled as
explicit output events.
-/

set_option maxRecDepth 4000

/-- A C++ `std::string`, modelled as its character sequence. -/
abbrev Str := List Char

/-- Modelled from the spec: the `LogLevel` enumeration declared in
`Logger.hpp` (header not included in the sources), ordered by declaration
order TRACE, DEBUG, INFO, WARN, ERROR, FATAL (spec section 3). -/
inductive LogLevel where
  | TRACE
  | DEBUG
  | INFO
  | WARN
  | ERROR
  | FATAL
  deriving DecidableEq, Repr

/-- `std::string::find`-style prefix test: does `tok` start the string? -/
def isPrefixL : Str → Str → Bool
  | [], _ => true
  | _ :: _, [] => false
  | c :: cs, d :: ds => if c = d then isPrefixL cs ds else false

/-- `s.find(tok)` followed by taking the pieces around the first occurrence:
`some (pre, suf)` when `tok` first occurs after `pre` and before `suf`,
`none` when `tok` does not occur in `s`. -/
def splitFirstL (tok : Str) : Str → Option (Str × Str)
  | [] => if isPrefixL tok [] then some ([], []) else none
  | c :: rest =>
      if isPrefixL tok (c :: rest) then some ([], (c :: rest).drop tok.length)
      else (splitFirstL tok rest).map (fun p => (c :: p.1, p.2))

/-- The mutable fields of `Logger::Impl` (ConfigManager.cpp, lines 580-588)
with their in-class initializers; the open `std::ofstream` is abstracted to
whether a file stream is open. -/
structure LoggerState where
  name : Str
  current_level : LogLevel := LogLevel.INFO
  file_open : Bool := false
  console_enabled : Bool := true
  timestamp_enabled : Bool := true
  pattern : Str := ("[{timestamp}] [{level}] [{name}] {message}".data)
  deriving DecidableEq, Repr

/-- `Logger::Logger(name)` (ConfigManager.cpp, lines 629-631): an empty
name becomes "default". -/
def loggerCreate (name : Str) : LoggerState :=
  { name := if name = [] then ("default".data) else name }

/-- `unordered_map::find`, modelled on an association list. -/
def assocFind {α β : Type} [DecidableEq α] (k : α) : List (α × β) → Option β
  | [] => none
  | (k2, v) :: rest => if k2 = k then some v else assocFind k rest

/-- `LoggerManagerImpl` (ConfigManager.cpp, lines 722-732).  Logger objects
live behind `shared_ptr`s; object identity is modelled by a numeric id into
`store`, the set of all Logger objects ever created by the registry
(`default_logger_` plus every entry of `loggers_`).  `loggers_` maps names
to ids, `defaultId` is `default_logger_`, `nextId` is the next fresh
object id. -/
structure ManagerState where
  loggers : List (Str × Nat)
  store : List (Nat × LoggerState)
  defaultId : Nat
  globalLevel : LogLevel
  nextId : Nat
  deriving DecidableEq, Repr

/-- `LoggerManager::GetLogger` (ConfigManager.cpp, lines 739-756): the
empty name and "default" resolve to the default logger; a registered name
returns its existing instance; otherwise a new logger is created with the
current global level, registered, and returned. -/
def getLogger (s : ManagerState) (name : Str) : Nat × ManagerState :=
  if name = [] ∨ name = ("default".data) then (s.defaultId, s)
  else
    match assocFind name s.loggers with
    | some id => (id, s)
    | none =>
        let lg : LoggerState := { loggerCreate name with current_level := s.globalLevel }
        (s.nextId,
         { s with loggers := (name, s.nextId) :: s.loggers,
                  store := (s.nextId, lg) :: s.store,
                  nextId := s.nextId + 1 })

/-- `LoggerManager::SetGlobalLevel` (ConfigManager.cpp, lines 764-776):
store the new global level and call `SetLevel` on the default logger and
on every registered logger — that is, on every object in the store. -/
def setGlobalLevel (s : ManagerState) (level : LogLevel) : ManagerState :=
  { s with globalLevel := level,
           store := s.store.map (fun p => (p.1, { p.2 with current_level := level })) }

/-- Registry well-formedness: registered ids are below the fresh-id
counter and pairwise distinct.  It holds of `initManager` and is preserved
by every registry operation. -/
def WF (s : ManagerState) : Prop :=
  (∀ p ∈ s.loggers, p.2 < s.nextId) ∧ (s.loggers.map Prod.snd).Nodup

/-- The loop body of `StringUtils::Split` (ConfigManager.cpp, lines
827-838): take the piece before the first occurrence of the delimiter and
continue after it; when the delimiter no longer occurs, the remainder is
the last piece.  The C++ `while` loop is given as fuel an upper bound on
its iteration count; for a non-empty delimiter every iteration consumes at
least one character, so `length + 1` iterations always suffice (on an
empty delimiter the C++ loop does not terminate). -/
def splitFuel (fuel : Nat) (s delimiter : Str) : List Str :=
  match fuel with
  | 0 => [s]
  | fuel + 1 =>
      match splitFirstL delimiter s with
      | none => [s]
      | some (pre, suf) => pre :: splitFuel fuel suf delimiter

namespace StringUtils

/-- `StringUtils::Split` (string-delimiter overload, ConfigManager.cpp,
lines 827-838). -/
def Split (s delimiter : Str) : List Str := splitFuel (s.length + 1) s delimiter

/-- `StringUtils::Join` (ConfigManager.cpp, lines 840-848): empty list
joins to the empty string, otherwise start from the first element and
append delimiter-plus-element for each remaining element. -/
def Join (strings : List Str) (delimiter : Str) : Str :=
  match strings with
  | [] => []
  | s0 :: rest => rest.foldl (fun result s => result ++ delimiter ++ s) s0

end StringUtils

namespace ConfigManager

end ConfigManager

/-- Registry well-formedness is preserved by `GetLogger`. -/
theorem WF_getLogger {s : ManagerState} (h : WF s) (n : Str) :
    WF (getLogger s n).2 := by
  obtain ⟨h1, h2⟩ := h
  by_cases hd : n = [] ∨ n = ("default".data)
  · have hs : (getLogger s n).2 = s := by simp [getLogger, hd]
    rw [hs]
    exact ⟨h1, h2⟩
  · cases hf : assocFind n s.loggers with
    | some id =>
        have hs : (getLogger s n).2 = s := by simp [getLogger, hd, hf]
        rw [hs]
        exact ⟨h1, h2⟩
    | none =>
        simp only [WF, getLogger, hd, hf]
        simp only [if_false, List.map_cons, List.nodup_cons]
        refine ⟨?_, ?_, h2⟩
        · rintro p hp
          rcases List.mem_cons.mp hp with hp | hp
          · subst hp
            simp
          · exact Nat.lt_succ_of_lt (h1 p hp)
        · intro hmem
          rcases List.mem_map.mp hmem with ⟨p, hp, hp2⟩
          have := h1 p hp
          omega

/-- Registry well-formedness is preserved by `SetGlobalLevel`. -/
theorem WF_setGlobalLevel {s : ManagerState} (h : WF s) (L : LogLevel) :
    WF (setGlobalLevel s L) := by
  obtain ⟨h1, h2⟩ := h
  exact ⟨h1, h2⟩

/-- A string is a prefix of itself followed by anything. -/
theorem isPrefixL_self_append (d r : Str) : isPrefixL d (d ++ r) = true := by
  induction d with
  | nil => simp [isPrefixL]
  | cons c cs ih => simp [isPrefixL, ih]

/-- A string none of whose characters belong to the delimiter contains no
occurrence of a non-empty delimiter. -/
theorem splitFirstL_none_of_no_char {d : Str} (hd : d ≠ []) {p : Str}
    (h : ∀ c ∈ p, c ∉ d) : splitFirstL d p = none := by
  cases d with
  | nil => exact absurd rfl hd
  | cons a as =>
      induction p with
      | nil => simp [splitFirstL, isPrefixL]
      | cons x p ih =>
          have hx : x ∉ a :: as := h x (List.mem_cons_self x p)
          have hax : a ≠ x := fun he => hx (he ▸ List.mem_cons_self a as)
          have hpre : isPrefixL (a :: as) (x :: p) = false := by
            simp only [isPrefixL]
            rw [if_neg hax]
          have ih' := ih (fun c hc => h c (List.mem_cons_of_mem _ hc))
          simp [splitFirstL, hpre, ih']

/-- The first occurrence of a non-empty delimiter in `p ++ d ++ r` is the
explicit one when no character of `p` belongs to `d`. -/
theorem splitFirstL_append_of_no_char {d : Str} (hd : d ≠ []) {p : Str}
    (h : ∀ c ∈ p, c ∉ d) (r : Str) :
    splitFirstL d (p ++ d ++ r) = some (p, r) := by
  induction p with
  | nil =>
      cases d with
      | nil => exact absurd rfl hd
      | cons a as =>
          have hpre := isPrefixL_self_append (a :: as) r
          simp only [List.cons_append] at hpre
          simp [splitFirstL, hpre, List.drop_left]
  | cons x p ih =>
      have hx : x ∉ d := h x (List.mem_cons_self x p)
      cases d with
      | nil => exact absurd rfl hd
      | cons a as =>
          have hax : a ≠ x := fun he => hx (by rw [← he]; exact List.mem_cons_self a as)
          have hpre : ∀ t : Str, isPrefixL (a :: as) (x :: t) = false := fun t => by
            simp only [isPrefixL]
            rw [if_neg hax]
          have ih' := ih (fun c hc => h c (List.mem_cons_of_mem _ hc))
          simp only [List.cons_append, List.append_assoc] at ih'
          simp [splitFirstL, hpre, ih']

/-- The accumulator of the join fold factors out on the left. -/
theorem foldl_join_shift (d : Str) (ps : List Str) (a b : Str) :
    ps.foldl (fun result s => result ++ d ++ s) (a ++ b)
      = a ++ ps.foldl (fun result s => result ++ d ++ s) b := by
  induction ps generalizing b with
  | nil => rfl
  | cons q ps ih =>
      simp only [List.foldl_cons]
      rw [List.append_assoc a b d, List.append_assoc a (b ++ d) q]
      exact ih (b ++ d ++ q)

/-- Unfolding of `Join` on a list with at least two elements. -/
theorem Join_cons_cons (p q : Str) (ps : List Str) (d : Str) :
    StringUtils.Join (p :: q :: ps) d = p ++ d ++ StringUtils.Join (q :: ps) d := by
  simp only [StringUtils.Join, List.foldl_cons]
  rw [show p ++ d ++ q = (p ++ d) ++ q from rfl, foldl_join_shift d ps (p ++ d) q]

/-- Joining `n` parts produces at least `n - 1` characters of delimiters,
so the part count never exceeds the joined length plus one. -/
theorem Join_length_bound (d : Str) (hd : d ≠ []) :
    ∀ parts : List Str, parts ≠ [] →
      parts.length ≤ (StringUtils.Join parts d).length + 1 := by
  intro parts
  induction parts with
  | nil => intro hc; exact absurd rfl hc
  | cons p ps ih =>
      intro _
      cases ps with
      | nil => simp [StringUtils.Join]
      | cons q ps2 =>
          have hdl : 0 < d.length := List.length_pos.mpr hd
          have ihl := ih (by simp)
          rw [Join_cons_cons]
          simp only [List.length_cons, List.length_append] at ihl ⊢
          omega

/-- Fuel-indexed round trip: splitting the join of non-empty `parts` by a
non-empty delimiter whose characters occur in no part recovers `parts`,
whenever the fuel covers the number of parts. -/
theorem splitFuel_join (d : Str) (hd : d ≠ []) :
    ∀ (parts : List Str) (fuel : Nat), parts ≠ [] →
      (∀ p ∈ parts, ∀ c ∈ p, c ∉ d) → parts.length ≤ fuel + 1 →
      splitFuel fuel (StringUtils.Join parts d) d = parts := by
  intro parts
  induction parts with
  | nil => intro fuel hc; exact absurd rfl hc
  | cons p ps ih =>
      intro fuel _ hchars hlen
      cases ps with
      | nil =>
          have hnone : splitFirstL d p = none :=
            splitFirstL_none_of_no_char hd (hchars p (List.mem_cons_self p []))
          have hjoin : StringUtils.Join [p] d = p := by simp [StringUtils.Join]
          cases fuel with
          | zero => simp [splitFuel, hjoin]
          | succ n => simp [splitFuel, hjoin, hnone]
      | cons q ps2 =>
          cases fuel with
          | zero => simp at hlen
          | succ n =>
              rw [Join_cons_cons]
              have hsplit := splitFirstL_append_of_no_char hd
                (hchars p (List.mem_cons_self p (q :: ps2))) (StringUtils.Join (q :: ps2) d)
              simp only [splitFuel, hsplit]
              have ihr := ih n (by simp)
                (fun x hx c hc => hchars x (List.mem_cons_of_mem _ hx) c hc)
                (by simp only [List.length_cons] at hlen ⊢; omega)
              rw [ihr]

/-- Claim C9 (amended): for a non-empty delimiter none of whose characters
occurs in any part, and a non-empty list of parts,
`Split (Join parts d) d = parts`. -/
theorem c9_theorem (parts : List Str) (d : Str) (hd : d ≠ []) (hne : parts ≠ [])
    (hchars : ∀ p ∈ parts, ∀ c ∈ p, c ∉ d) :
    StringUtils.Split (StringUtils.Join parts d) d = parts := by
  have hb := Join_length_bound d hd parts hne
  exact splitFuel_join d hd parts ((StringUtils.Join parts d).length + 1) hne hchars
    (by omega)

/-- Counterexample for C9 as stated: with parts ["a", "a"] and delimiter
"aa" the delimiter is non-empty and occurs inside no part, yet the
round trip yields ["", "", ""], because an occurrence of the delimiter
spans the junction of the two joined parts. -/
theorem c9_counterexample :
    ("aa".data) ≠ []
    ∧ splitFirstL ("aa".data) ("a".data) = none
    ∧ StringUtils.Split
        (StringUtils.Join [("a".data), ("a".data)] ("aa".data)) ("aa".data)
        = [[], [], []]
    ∧ [([] : Str), [], []] ≠ [("a".data), ("a".data)] := by
  refine ⟨by decide, by decide, by decide, by decide⟩

/-- Witness for C9: joining ["ab", "cd"] with "," and splitting again is
the identity. -/
theorem c9_witness :
    StringUtils.Split (StringUtils.Join [("ab".data), ("cd".data)] (",".data)) (",".data)
      = [("ab".data), ("cd".data)] :=
  c9_theorem [("ab".data), ("cd".data)] (",".data) (by decide) (by decide) (by decide)

